import Mathlib

/-!
Verification of the record-aggregation core of
`internal/provider/unique_contact_function.go` (`UniqueContactFunction.Run`
and `UniqueSliceElements`).

The Go source is shallowly embedded:
* a CSV row (`map[string]string`) becomes an association list `Record`
  (Go map keys are unique; indexing an absent key yields the zero value
  `""`);
* the `seen` accumulator map (`map[string]contact`) and the `variables`
  map (`map[string]string`) become association lists with Go map
  update/lookup semantics (`alSet` / `alGet?`); only lookup and key
  membership are observed, so the list order carried by the model is
  irrelevant to the stated results;
* the per-contact mutex is dropped: the loop is sequential, the lock is
  vestigial, and no claim observes it;
* `tflog.Warn` calls are logging side effects with no influence on the
  produced value and are not modelled;
* the `attr.Value` layer of the terraform-plugin-framework
  (`ObjectValueMust`, `ListValueMust`, `SetValueMust`, `MapValueMust`)
  is modelled with explicit type-checked constructors returning
  `Except`, so that reachability of their panic branches is a provable
  question.
-/

/-- One input row (`map[string]string`), as an association list. -/
abbrev Record := List (String × String)

/-- Go map lookup returning `Option`: the `value, ok := m[k]` form. -/
def alGet? {α : Type} (m : List (String × α)) (k : String) : Option α :=
  match m.find? (fun p => p.1 == k) with
  | some p => some p.2
  | none => none

/-- Go map update `m[k] = v`: replace the binding if the key is present,
otherwise add it. -/
def alSet {α : Type} : List (String × α) → String → α → List (String × α)
  | [], k, v => [(k, v)]
  | p :: ps, k, v => if p.1 == k then (k, v) :: ps else p :: alSet ps k v

/-- Go map indexing `v[field]` on a `map[string]string`: an absent key
yields the zero value `""`. -/
def getField (r : Record) (f : String) : String :=
  match r.find? (fun p => p.1 == f) with
  | some p => p.2
  | none => ""

/-- Whether the record has the field as a key (`_, ok := r[f]`). -/
def hasField (r : Record) (f : String) : Bool :=
  r.any (fun p => p.1 == f)

/-- Modelled from the spec: `stripSpaces` is defined in this repository
outside the sources at hand; per the spec the group key is the
"trim-surrounding-whitespace" of the group-by value, so it is modelled
as trimming leading and trailing whitespace (written over the
character list so that it evaluates by `decide`). -/
def stripSpaces (s : String) : String :=
  String.mk (((s.data.dropWhile Char.isWhitespace).reverse.dropWhile
    Char.isWhitespace).reverse)

/-- The five field selectors of `unique_contact` (the `group_by_field`,
`code_field`, `destination_field`, `label_fields` and `variable_fields`
arguments, after the glue layer has unmarshalled them). -/
structure Selectors where
  groupByField : String
  codeField : String
  destinationField : String
  labelFields : List String
  variableFields : List String
deriving DecidableEq, Repr

/-- The `destination` pair of `Run` (lines 132–135). -/
structure Destination where
  code : String
  destination : String
deriving DecidableEq, Repr

/-- The per-group accumulator `contact` (lines 137–143), without the
vestigial mutex. -/
structure Contact where
  destinations : List Destination
  labels : List String
  «variables» : List (String × String)
deriving DecidableEq, Repr

/-- The accumulator created on first sight of a group key
(lines 156–161). -/
def emptyContact : Contact :=
  ⟨[], [], []⟩

/-- Lines 166–189: one record's contribution to its group's accumulator:
append the row's label tuple, append the `(code, destination)` pair, and
set every variable field to the row's value (unconditionally; the
overwrite warning is a log). -/
def recordStep (sel : Selectors) (c : Contact) (v : Record) : Contact :=
  ⟨c.destinations ++ [⟨getField v sel.codeField, getField v sel.destinationField⟩],
   c.labels ++ sel.labelFields.map (fun field => getField v field),
   sel.variableFields.foldl (fun m field => alSet m field (getField v field)) c.«variables»⟩

/-- The group key of a record (line 148). -/
def groupKey (sel : Selectors) (v : Record) : String :=
  stripSpaces (getField v sel.groupByField)

/-- Lines 147–193, one iteration: skip the record when its trimmed group
key is empty (the warning is a log), otherwise get-or-create the
accumulator and merge the record into it. -/
def processRecord (sel : Selectors) (seen : List (String × Contact)) (v : Record) :
    List (String × Contact) :=
  let name := groupKey sel v
  if name == "" then seen
  else alSet seen name (recordStep sel ((alGet? seen name).getD emptyContact) v)

/-- The whole grouping pass (lines 146–193). -/
def groupRecords (sel : Selectors) (records : List Record) : List (String × Contact) :=
  records.foldl (processRecord sel) []

/-- Lines 196–205: first-seen dedup of the accumulated label values via
the `seenLabels` set; the `types.StringValue` wrapping is deferred to
the attribute encoding below. -/
def finalizeLabels (ls : List String) : List String :=
  (ls.foldl
    (fun (st : List String × List String) label =>
      (if st.2.contains label then st.1 else st.1 ++ [label], label :: st.2))
    ([], [])).1

/-- Lines 256–267: generic first-seen dedup used on the label list. -/
def UniqueSliceElements {T : Type} [BEq T] (inputSlice : List T) : List T :=
  (inputSlice.foldl
    (fun (st : List T × List T) element =>
      if st.2.contains element then st else (st.1 ++ [element], element :: st.2))
    ([], [])).1

/-- Lines 212–227: first-seen dedup of the accumulated destination
pairs, keyed on the `destination` value only (`seenDestination`). -/
def finalizeDestinations (ds : List Destination) : List Destination :=
  (ds.foldl
    (fun (st : List Destination × List String) dest =>
      (if st.2.contains dest.destination then st.1 else st.1 ++ [dest],
       dest.destination :: st.2))
    ([], [])).1

/-- The merged per-group output. -/
structure Summary where
  labels : List String
  «variables» : List (String × String)
  destinations : List Destination
deriving DecidableEq, Repr

/-- Lines 196–233, one group: dedup labels (twice, lines 199–205 and the
`UniqueSliceElements` call on line 231), copy the variables map, dedup
destinations by destination value. -/
def finalizeContact (c : Contact) : Summary :=
  ⟨UniqueSliceElements (finalizeLabels c.labels),
   c.«variables»,
   finalizeDestinations c.destinations⟩

/-- The whole finalize pass (lines 195–234): one Summary per group. -/
def Finalize (seen : List (String × Contact)) : List (String × Summary) :=
  seen.map (fun p => (p.1, finalizeContact p.2))

/-- The aggregation core of `Run`: grouping pass then finalize pass. -/
def Run (sel : Selectors) (records : List Record) : List (String × Summary) :=
  Finalize (groupRecords sel records)

/-- Spec-side stable unique filter, keyed: keep each element whose key
has not been seen before, in first-seen order ("walk the sequence in
order, keep the first occurrence of each distinct key"). -/
def specFirstSeenBy {α : Type} (key : α → String) : List α → List α
  | [] => []
  | a :: as => a :: (specFirstSeenBy key as).filter (fun b => !(key b == key a))

/-- The subsequence of records contributing to group `k`, in input
order. -/
def groupRows (sel : Selectors) (records : List Record) (k : String) : List Record :=
  records.filter (fun r => groupKey sel r == k)

/-- The accumulator obtained by merging `rows` into `c` in order. -/
def contactExtend (sel : Selectors) (c : Contact) (rows : List Record) : Contact :=
  rows.foldl (recordStep sel) c

/-- The accumulator a group with rows `rows` ends up with. -/
def contactOf (sel : Selectors) (rows : List Record) : Contact :=
  contactExtend sel emptyContact rows

/-- The `(code, destination)` pairs contributed by `rows`, in order. -/
def destSeq (sel : Selectors) (rows : List Record) : List Destination :=
  rows.map (fun r => ⟨getField r sel.codeField, getField r sel.destinationField⟩)

/-- The flattened label values contributed by `rows`, in order: each
row's tuple is `record[f]` for every `f` in `labelFields` in list
order. -/
def labelSeq (sel : Selectors) (rows : List Record) : List String :=
  rows.flatMap (fun r => sel.labelFields.map (fun f => getField r f))

example :
    Run ⟨"name", "code", "destination", ["code", "destination"], ["name"]⟩
      [[("name", "foo1"), ("code", "1"), ("destination", "ami-54d2a63b")],
       [("name", "foo1"), ("code", "1"), ("destination", "ami-54d2a63c")],
       [("name", "foo1"), ("code", "2"), ("destination", "ami-54d2a63b")],
       [("name", "bar1"), ("code", "m3.large"), ("destination", "ami-54d2a63b")]]
    = [("foo1", ⟨["1", "ami-54d2a63b", "ami-54d2a63c", "2"],
                 [("name", "foo1")],
                 [⟨"1", "ami-54d2a63b"⟩, ⟨"1", "ami-54d2a63c"⟩]⟩),
       ("bar1", ⟨["m3.large", "ami-54d2a63b"],
                 [("name", "bar1")],
                 [⟨"m3.large", "ami-54d2a63b"⟩]⟩)] := by
  decide

theorem alGet?_nil {α : Type} (k : String) : alGet? ([] : List (String × α)) k = none := rfl

theorem alGet?_cons {α : Type} (p : String × α) (ps : List (String × α)) (k : String) :
    alGet? (p :: ps) k = if p.1 == k then some p.2 else alGet? ps k := by
  by_cases h : p.1 == k <;> simp [alGet?, List.find?_cons, h]

theorem alGet?_alSet {α : Type} (m : List (String × α)) (k k' : String) (v : α) :
    alGet? (alSet m k v) k' = if k == k' then some v else alGet? m k' := by
  induction m with
  | nil =>
    by_cases h : k = k' <;> simp [alSet, alGet?_cons, alGet?_nil, h]
  | cons p ps ih =>
    by_cases h : p.1 = k
    · by_cases h' : k = k' <;> simp [alSet, alGet?_cons, h, h', ih]
    · by_cases h' : p.1 = k'
      · have h2 : ¬ k = k' := fun e => h (h'.trans e.symm)
        have h3 : ¬ k' = k := fun e => h2 e.symm
        simp [alSet, alGet?_cons, h, h', h2, h3]
      · simp [alSet, alGet?_cons, h, h', ih]

theorem groupRows_cons (sel : Selectors) (r : Record) (rs : List Record) (k : String) :
    groupRows sel (r :: rs) k =
      if groupKey sel r == k then r :: groupRows sel rs k else groupRows sel rs k := by
  by_cases h : groupKey sel r == k <;> simp [groupRows, List.filter_cons, h]

theorem contactExtend_cons (sel : Selectors) (c : Contact) (r : Record) (rows : List Record) :
    contactExtend sel c (r :: rows) = contactExtend sel (recordStep sel c r) rows := rfl

/-- Once a group key holds accumulator `c`, folding further records
extends it with exactly that key's rows, in input order. -/
theorem lookup_foldl_some (sel : Selectors) (rs : List Record) (S : List (String × Contact))
    (k : String) (c : Contact) (hk0 : ¬ k = "") (h : alGet? S k = some c) :
    alGet? (rs.foldl (processRecord sel) S) k =
      some (contactExtend sel c (groupRows sel rs k)) := by
  induction rs generalizing S c with
  | nil => simp [groupRows, contactExtend, h]
  | cons r rs ih =>
    rw [List.foldl_cons]
    by_cases hgk : groupKey sel r = k
    · have hrows : groupRows sel (r :: rs) k = r :: groupRows sel rs k := by
        rw [groupRows_cons, if_pos (by simp [hgk])]
      have hstep : processRecord sel S r = alSet S k (recordStep sel c r) := by
        simp [processRecord, hgk, hk0, h]
      rw [hrows, hstep, contactExtend_cons]
      exact ih _ _ (by simp [alGet?_alSet])
    · have hrows : groupRows sel (r :: rs) k = groupRows sel rs k := by
        rw [groupRows_cons, if_neg (by simp [hgk])]
      rw [hrows]
      by_cases hz : groupKey sel r = ""
      · have hstep : processRecord sel S r = S := by simp [processRecord, hz]
        rw [hstep]
        exact ih _ _ h
      · have hstep : processRecord sel S r =
            alSet S (groupKey sel r)
              (recordStep sel ((alGet? S (groupKey sel r)).getD emptyContact) r) := by
          simp [processRecord, hz]
        rw [hstep]
        refine ih _ _ ?_
        rw [alGet?_alSet, if_neg (by simp [hgk]), h]

/-- A key not yet present ends up absent exactly when no record of the
suffix belongs to it, and otherwise holds the accumulator built from
its rows alone. -/
theorem lookup_foldl_none (sel : Selectors) (rs : List Record) (S : List (String × Contact))
    (k : String) (hk0 : ¬ k = "") (h : alGet? S k = none) :
    alGet? (rs.foldl (processRecord sel) S) k =
      if (groupRows sel rs k).isEmpty then none
      else some (contactOf sel (groupRows sel rs k)) := by
  induction rs generalizing S with
  | nil => simp [groupRows, h]
  | cons r rs ih =>
    rw [List.foldl_cons]
    by_cases hgk : groupKey sel r = k
    · have hrows : groupRows sel (r :: rs) k = r :: groupRows sel rs k := by
        rw [groupRows_cons, if_pos (by simp [hgk])]
      have hstep : processRecord sel S r =
          alSet S k (recordStep sel emptyContact r) := by
        simp [processRecord, hgk, hk0, h]
      rw [hrows, hstep]
      have hrec := lookup_foldl_some sel rs (alSet S k (recordStep sel emptyContact r)) k
        (recordStep sel emptyContact r) hk0 (by simp [alGet?_alSet])
      rw [hrec]
      simp [contactOf, contactExtend_cons]
    · have hrows : groupRows sel (r :: rs) k = groupRows sel rs k := by
        rw [groupRows_cons, if_neg (by simp [hgk])]
      rw [hrows]
      by_cases hz : groupKey sel r = ""
      · have hstep : processRecord sel S r = S := by simp [processRecord, hz]
        rw [hstep]
        exact ih _ h
      · have hstep : processRecord sel S r =
            alSet S (groupKey sel r)
              (recordStep sel ((alGet? S (groupKey sel r)).getD emptyContact) r) := by
          simp [processRecord, hz]
        rw [hstep]
        refine ih _ ?_
        rw [alGet?_alSet, if_neg (by simp [hgk]), h]

/-- The empty key never becomes a key of the grouping map: records with
a blank trimmed group key are skipped. -/
theorem lookup_foldl_blank (sel : Selectors) (rs : List Record) (S : List (String × Contact))
    (h : alGet? S "" = none) :
    alGet? (rs.foldl (processRecord sel) S) "" = none := by
  induction rs generalizing S with
  | nil => exact h
  | cons r rs ih =>
    rw [List.foldl_cons]
    by_cases hz : groupKey sel r = ""
    · have hstep : processRecord sel S r = S := by simp [processRecord, hz]
      rw [hstep]; exact ih _ h
    · have hstep : processRecord sel S r =
          alSet S (groupKey sel r) (recordStep sel ((alGet? S (groupKey sel r)).getD emptyContact) r) := by
        simp [processRecord, hz]
      rw [hstep]
      refine ih _ ?_
      rw [alGet?_alSet, if_neg (by simp [hz]), h]

theorem alGet?_Finalize (s : List (String × Contact)) (k : String) :
    alGet? (Finalize s) k = (alGet? s k).map finalizeContact := by
  induction s with
  | nil => simp [Finalize, alGet?_nil]
  | cons p ps ih =>
    have hc : Finalize (p :: ps) = (p.1, finalizeContact p.2) :: Finalize ps := rfl
    rw [hc, alGet?_cons, alGet?_cons]
    by_cases h : p.1 = k <;> simp [h, ih]

/-- Characterization of the whole pipeline at a non-blank key: the entry
is present iff the key has contributing rows, and then equals the
finalized accumulator of exactly those rows. -/
theorem run_lookup (sel : Selectors) (rs : List Record) (k : String) (hk0 : ¬ k = "") :
    alGet? (Run sel rs) k =
      if (groupRows sel rs k).isEmpty then none
      else some (finalizeContact (contactOf sel (groupRows sel rs k))) := by
  rw [Run, alGet?_Finalize, groupRecords, lookup_foldl_none sel rs [] k hk0 rfl]
  by_cases h : (groupRows sel rs k).isEmpty <;> simp [h]

/-- The blank key is never a key of the result. -/
theorem run_lookup_blank (sel : Selectors) (rs : List Record) :
    alGet? (Run sel rs) "" = none := by
  rw [Run, alGet?_Finalize, groupRecords, lookup_foldl_blank sel rs [] rfl]
  rfl

theorem contactExtend_destinations (sel : Selectors) (c : Contact) (rows : List Record) :
    (contactExtend sel c rows).destinations = c.destinations ++ destSeq sel rows := by
  induction rows generalizing c with
  | nil => simp [contactExtend, destSeq]
  | cons r rows ih =>
    rw [contactExtend_cons, ih]
    simp [recordStep, destSeq]

theorem contactExtend_labels (sel : Selectors) (c : Contact) (rows : List Record) :
    (contactExtend sel c rows).labels = c.labels ++ labelSeq sel rows := by
  induction rows generalizing c with
  | nil => simp [contactExtend, labelSeq]
  | cons r rows ih =>
    rw [contactExtend_cons, ih]
    simp [recordStep, labelSeq]

theorem contactExtend_vars (sel : Selectors) (c : Contact) (rows : List Record) :
    (contactExtend sel c rows).«variables» =
      rows.foldl
        (fun m r => sel.variableFields.foldl (fun m field => alSet m field (getField r field)) m)
        c.«variables» := by
  induction rows generalizing c with
  | nil => rfl
  | cons r rows ih =>
    rw [contactExtend_cons, List.foldl_cons]
    exact ih _

/-- The spec-side unique filter commutes with any filter that looks only
at the key. -/
theorem specFirstSeenBy_filter {α : Type} (key : α → String) (p : String → Bool)
    (l : List α) :
    specFirstSeenBy key (l.filter (fun b => p (key b))) =
      (specFirstSeenBy key l).filter (fun b => p (key b)) := by
  induction l with
  | nil => simp [specFirstSeenBy]
  | cons a as ih =>
    by_cases h : p (key a)
    · rw [List.filter_cons, if_pos (by simp [h]), specFirstSeenBy, specFirstSeenBy, ih,
        List.filter_cons, if_pos (by simp [h])]
      congr 1
      rw [List.filter_filter, List.filter_filter]
      exact List.filter_congr (fun b _ => Bool.and_comm _ _)
    · rw [List.filter_cons, if_neg (by simp [h]), ih, specFirstSeenBy,
        List.filter_cons, if_neg (by simp [h]), List.filter_filter]
      refine List.filter_congr (fun b _ => ?_)
      by_cases hb : key b = key a
      · rw [hb]
        simp [h]
      · simp [hb]

theorem specFirstSeenBy_idem {α : Type} (key : α → String) (l : List α) :
    specFirstSeenBy key (specFirstSeenBy key l) = specFirstSeenBy key l := by
  induction l with
  | nil => simp [specFirstSeenBy]
  | cons a as ih =>
    have h1 : specFirstSeenBy key (a :: as) =
        a :: (specFirstSeenBy key as).filter (fun b => !(key b == key a)) := rfl
    rw [h1, specFirstSeenBy]
    congr 1
    rw [specFirstSeenBy_filter key (fun s => !(s == key a)), ih, List.filter_filter]
    exact List.filter_congr (fun b _ => Bool.and_self _)

/-- The first-seen loops of the finalize pass (result list plus a seen
set, the seen set extended at every element) compute the spec-side
unique filter of the not-yet-seen elements. -/
theorem foldl_firstSeen_keyed {α : Type} (key : α → String) (xs : List α)
    (acc : List α) (seen : List String) :
    (xs.foldl (fun (st : List α × List String) a =>
        (if st.2.contains (key a) then st.1 else st.1 ++ [a], key a :: st.2))
      (acc, seen)).1
    = acc ++ specFirstSeenBy key (xs.filter (fun a => !seen.contains (key a))) := by
  induction xs generalizing acc seen with
  | nil => simp [specFirstSeenBy]
  | cons a xs ih =>
    simp only [List.foldl_cons]
    by_cases h : seen.contains (key a) = true
    · have hm : key a ∈ seen := by simpa using h
      rw [if_pos h, ih, List.filter_cons, if_neg (by simpa using hm)]
      congr 1
      refine congrArg (specFirstSeenBy key) (List.filter_congr (fun b _ => ?_))
      by_cases hb : key b = key a
      · rw [hb]
        simp [List.contains_cons, hm]
      · simp [List.contains_cons, hb]
    · have hm : ¬ key a ∈ seen := by simpa using h
      rw [if_neg h, ih, List.filter_cons, if_pos (by simpa using hm),
        specFirstSeenBy, ← specFirstSeenBy_filter key (fun s => !(s == key a)),
        List.filter_filter, ← List.append_cons]
      congr 2
      refine congrArg (specFirstSeenBy key) (List.filter_congr (fun b _ => ?_))
      by_cases hb : key b = key a
      · simp [List.contains_cons, hb]
      · simp [List.contains_cons, hb]

/-- `UniqueSliceElements`'s loop (seen set extended only at kept
elements) also computes the spec-side unique filter. -/
theorem UniqueSliceElements_foldl (xs acc seen : List String) :
    (xs.foldl (fun (st : List String × List String) element =>
        if st.2.contains element then st else (st.1 ++ [element], element :: st.2))
      (acc, seen)).1
    = acc ++ specFirstSeenBy (fun s => s) (xs.filter (fun a => !seen.contains a)) := by
  induction xs generalizing acc seen with
  | nil => simp [specFirstSeenBy]
  | cons a xs ih =>
    simp only [List.foldl_cons]
    by_cases h : seen.contains a = true
    · have hm : a ∈ seen := by simpa using h
      rw [if_pos h, ih, List.filter_cons, if_neg (by simpa using hm)]
    · have hm : ¬ a ∈ seen := by simpa using h
      rw [if_neg h, ih, List.filter_cons, if_pos (by simpa using hm),
        specFirstSeenBy, ← specFirstSeenBy_filter (fun s => s) (fun s => !(s == a)),
        List.filter_filter, ← List.append_cons]
      congr 2
      refine congrArg (specFirstSeenBy (fun s => s)) (List.filter_congr (fun b _ => ?_))
      by_cases hb : b = a
      · simp [List.contains_cons, hb]
      · simp [List.contains_cons, hb]

theorem finalizeLabels_spec (ls : List String) :
    finalizeLabels ls = specFirstSeenBy (fun s => s) ls := by
  have h := foldl_firstSeen_keyed (fun s => s) ls [] []
  simpa [finalizeLabels] using h

theorem UniqueSliceElements_spec (xs : List String) :
    UniqueSliceElements xs = specFirstSeenBy (fun s => s) xs := by
  have h := UniqueSliceElements_foldl xs [] []
  simpa [UniqueSliceElements] using h

theorem finalizeDestinations_spec (ds : List Destination) :
    finalizeDestinations ds = specFirstSeenBy Destination.destination ds := by
  have h := foldl_firstSeen_keyed Destination.destination ds [] []
  simpa [finalizeDestinations] using h

/-- The double dedup of the label list (the loop of lines 199–205
followed by `UniqueSliceElements` on line 231) collapses to one
spec-side unique filter. -/
theorem finalize_labels_eq (ls : List String) :
    UniqueSliceElements (finalizeLabels ls) = specFirstSeenBy (fun s => s) ls := by
  rw [finalizeLabels_spec, UniqueSliceElements_spec, specFirstSeenBy_idem]

theorem getField_of_not_hasField (r : Record) (f : String) (h : hasField r f = false) :
    getField r f = "" := by
  have hall := List.any_eq_false.mp h
  rw [getField]
  cases hfind : r.find? (fun p => p.1 == f) with
  | none => rfl
  | some p =>
    exact absurd (List.find?_some hfind) (hall p (List.mem_of_find?_eq_some hfind))

theorem alGet?_varsUpdate_not_mem (r : Record) (f : String) :
    ∀ (fields : List String), ¬ f ∈ fields → ∀ (m : List (String × String)),
      alGet? (fields.foldl (fun m field => alSet m field (getField r field)) m) f = alGet? m f
  | [], _, m => rfl
  | g :: gs, hf, m => by
    rw [List.foldl_cons]
    have hgs : ¬ f ∈ gs := fun hmem => hf (List.mem_cons_of_mem g hmem)
    have hg : ¬ g = f := fun e => hf (by rw [e]; exact List.mem_cons_self f gs)
    rw [alGet?_varsUpdate_not_mem r f gs hgs, alGet?_alSet, if_neg (by simpa using hg)]

theorem alGet?_varsUpdate_mem (r : Record) (f : String) :
    ∀ (fields : List String), f ∈ fields → ∀ (m : List (String × String)),
      alGet? (fields.foldl (fun m field => alSet m field (getField r field)) m) f =
        some (getField r f)
  | [], hf, _ => absurd hf (List.not_mem_nil f)
  | g :: gs, hf, m => by
    rw [List.foldl_cons]
    by_cases hm : f ∈ gs
    · exact alGet?_varsUpdate_mem r f gs hm _
    · have he : f = g := by
        rcases List.mem_cons.mp hf with h | h
        · exact h
        · exact absurd h hm
      subst he
      rw [alGet?_varsUpdate_not_mem r f gs hm, alGet?_alSet, if_pos (by simp)]

theorem vars_rows_not_mem (sel : Selectors) (f : String) (hf : ¬ f ∈ sel.variableFields) :
    ∀ (rows : List Record) (m : List (String × String)),
      alGet? (rows.foldl
        (fun m r => sel.variableFields.foldl (fun m field => alSet m field (getField r field)) m)
        m) f = alGet? m f
  | [], _ => rfl
  | r :: rows, m => by
    rw [List.foldl_cons, vars_rows_not_mem sel f hf rows _,
      alGet?_varsUpdate_not_mem r f sel.variableFields hf]

/-- Last writer wins: over a non-empty row sequence the variables map
holds, for each variable field, the value read from the last row. -/
theorem vars_rows_last (sel : Selectors) (f : String) (hf : f ∈ sel.variableFields) :
    ∀ (rows : List Record) (rlast : Record), rows.getLast? = some rlast →
      ∀ (m : List (String × String)),
        alGet? (rows.foldl
          (fun m r => sel.variableFields.foldl (fun m field => alSet m field (getField r field)) m)
          m) f = some (getField rlast f)
  | [], rlast, h => by cases h
  | [r], rlast, h => by
    have he : r = rlast := by simpa using h
    subst he
    intro m
    rw [List.foldl_cons]
    exact alGet?_varsUpdate_mem r f sel.variableFields hf m
  | r :: r2 :: rows, rlast, h => by
    intro m
    rw [List.foldl_cons]
    exact vars_rows_last sel f hf (r2 :: rows) rlast (by simpa using h) _

/-- The `attr.Type` trees the function builds (`types.StringType`,
`ListType`, `SetType`, `MapType`, `ObjectType`). -/
inductive AttrType where
  | stringT : AttrType
  | listT : AttrType → AttrType
  | setT : AttrType → AttrType
  | mapT : AttrType → AttrType
  | objectT : List (String × AttrType) → AttrType

mutual

/-- Structural equality of attribute types (the framework's
`attr.Type` equality check used by the value constructors). -/
def AttrType.beq : AttrType → AttrType → Bool
  | .stringT, .stringT => true
  | .listT a, .listT b => AttrType.beq a b
  | .setT a, .setT b => AttrType.beq a b
  | .mapT a, .mapT b => AttrType.beq a b
  | .objectT ts, .objectT us => beqFields ts us
  | _, _ => false

def beqFields : List (String × AttrType) → List (String × AttrType) → Bool
  | [], [] => true
  | (n, t) :: ts, (m, u) :: us => n == m && AttrType.beq t u && beqFields ts us
  | _, _ => false

end

instance : BEq AttrType := ⟨AttrType.beq⟩

/-- `attr.Value` trees; a collection value carries its element or
attribute types, as the framework values do. -/
inductive AttrValue where
  | stringV : String → AttrValue
  | listV : AttrType → List AttrValue → AttrValue
  | setV : AttrType → List AttrValue → AttrValue
  | mapV : AttrType → List (String × AttrValue) → AttrValue
  | objectV : List (String × AttrType) → List (String × AttrValue) → AttrValue

/-- `attr.Value.Type()`. -/
def AttrValue.typeOf : AttrValue → AttrType
  | .stringV _ => .stringT
  | .listV t _ => .listT t
  | .setV t _ => .setT t
  | .mapV t _ => .mapT t
  | .objectV ts _ => .objectT ts

/-- `destinationSchema()` (lines 73–80), as its attribute-type list. -/
def destinationSchema : List (String × AttrType) :=
  [("code", .stringT), ("destination", .stringT)]

/-- `returnSchema()` (lines 82–96), as its attribute-type list. -/
def returnSchema : List (String × AttrType) :=
  [("labels", .listT .stringT),
   ("variables", .mapT .stringT),
   ("destinations", .setT (.objectT destinationSchema))]

/-- `types.ObjectValueMust`: panics unless the attribute names are
exactly the declared ones and every value's type equals its declared
attribute type; the panic is modelled as the `error` branch. -/
def ObjectValueMust (ts : List (String × AttrType)) (attrs : List (String × AttrValue)) :
    Except String AttrValue :=
  if (ts.all (fun t => match alGet? attrs t.1 with
        | some v => v.typeOf == t.2
        | none => false)
      && attrs.all (fun a => (alGet? ts a.1).isSome) : Bool)
  then .ok (.objectV ts attrs)
  else .error "object attributes do not match the schema"

/-- `types.ListValueMust`: panics unless every element's type equals
the declared element type. -/
def ListValueMust (t : AttrType) (elems : List AttrValue) : Except String AttrValue :=
  if elems.all (fun v => v.typeOf == t) then .ok (.listV t elems)
  else .error "list element of wrong type"

/-- `types.SetValueMust`: panics unless every element's type equals the
declared element type. -/
def SetValueMust (t : AttrType) (elems : List AttrValue) : Except String AttrValue :=
  if elems.all (fun v => v.typeOf == t) then .ok (.setV t elems)
  else .error "set element of wrong type"

/-- `types.MapValueMust`: panics unless every value's type equals the
declared element type. -/
def MapValueMust (t : AttrType) (elems : List (String × AttrValue)) : Except String AttrValue :=
  if elems.all (fun p => p.2.typeOf == t) then .ok (.mapV t elems)
  else .error "map element of wrong type"

/-- Lines 218–221: the object built for one kept destination. -/
def destObj (d : Destination) : Except String AttrValue :=
  ObjectValueMust destinationSchema
    [("code", .stringV d.code), ("destination", .stringV d.destination)]

/-- The destination objects of one group, each through
`ObjectValueMust`. -/
def destObjs : List Destination → Except String (List AttrValue)
  | [] => .ok []
  | d :: ds => do
    let v ← destObj d
    let vs ← destObjs ds
    pure (v :: vs)

/-- Lines 229–233 for one group, with the framework constructors made
explicit: wrap the deduplicated labels, the variables map and the
deduplicated destination objects, then build the group object. -/
def summaryAttr (s : Summary) : Except String AttrValue := do
  let dests ← destObjs s.destinations
  let destsSet ← SetValueMust (.objectT destinationSchema) dests
  let labelsList ← ListValueMust .stringT (s.labels.map (fun l => .stringV l))
  let varsMap ← MapValueMust .stringT (s.«variables».map (fun p => (p.1, AttrValue.stringV p.2)))
  ObjectValueMust returnSchema
    [("destinations", destsSet), ("labels", labelsList), ("variables", varsMap)]

/-- The `contacts` map of line 195, built group by group. -/
def contactsAttr : List (String × Summary) → Except String (List (String × AttrValue))
  | [] => .ok []
  | (n, s) :: rest => do
    let v ← summaryAttr s
    let vs ← contactsAttr rest
    pure ((n, v) :: vs)

/-- The finalize pass through the framework constructors, ending with
`types.MapValueMust(returnSchema(), contacts)` on line 253. -/
def FinalizeE (seen : List (String × Contact)) : Except String AttrValue := do
  let contacts ← contactsAttr (Finalize seen)
  MapValueMust (.objectT returnSchema) contacts

/-- The whole pipeline through the framework constructors. -/
def RunE (sel : Selectors) (records : List Record) : Except String AttrValue :=
  FinalizeE (groupRecords sel records)

/-- The value `destObj` produces when its check passes. -/
def destObjPure (d : Destination) : AttrValue :=
  .objectV destinationSchema [("code", .stringV d.code), ("destination", .stringV d.destination)]

/-- The value `summaryAttr` produces when all checks pass. -/
def summaryAttrPure (s : Summary) : AttrValue :=
  .objectV returnSchema
    [("destinations", .setV (.objectT destinationSchema) (s.destinations.map destObjPure)),
     ("labels", .listV .stringT (s.labels.map (fun l => .stringV l))),
     ("variables", .mapV .stringT (s.«variables».map (fun p => (p.1, AttrValue.stringV p.2))))]

/-- The attribute encoding of a whole result. -/
def resultAttr (res : List (String × Summary)) : AttrValue :=
  .mapV (.objectT returnSchema) (res.map (fun p => (p.1, summaryAttrPure p.2)))

theorem destObj_ok (d : Destination) : destObj d = Except.ok (destObjPure d) := rfl

theorem destObjs_ok (ds : List Destination) :
    destObjs ds = Except.ok (ds.map destObjPure) := by
  induction ds with
  | nil => rfl
  | cons d ds ih =>
    show (do
      let v ← destObj d
      let vs ← destObjs ds
      pure (v :: vs) : Except String (List AttrValue)) = _
    rw [destObj_ok, ih]
    rfl

theorem all_typeOf_destObjPure (ds : List Destination) :
    (ds.map destObjPure).all
      (fun v => v.typeOf == AttrType.objectT destinationSchema) = true := by
  induction ds with
  | nil => rfl
  | cons d ds ih =>
    rw [List.map_cons, List.all_cons, ih]
    rfl

theorem all_typeOf_stringV (ls : List String) :
    (ls.map (fun l => AttrValue.stringV l)).all
      (fun v => v.typeOf == AttrType.stringT) = true := by
  induction ls with
  | nil => rfl
  | cons l ls ih =>
    rw [List.map_cons, List.all_cons, ih]
    rfl

theorem all_typeOf_stringV_pairs (vs : List (String × String)) :
    (vs.map (fun p => (p.1, AttrValue.stringV p.2))).all
      (fun p => p.2.typeOf == AttrType.stringT) = true := by
  induction vs with
  | nil => rfl
  | cons v vs ih =>
    rw [List.map_cons, List.all_cons, ih]
    rfl

theorem summaryAttr_ok (s : Summary) : summaryAttr s = Except.ok (summaryAttrPure s) := by
  show (do
    let dests ← destObjs s.destinations
    let destsSet ← SetValueMust (.objectT destinationSchema) dests
    let labelsList ← ListValueMust .stringT (s.labels.map (fun l => .stringV l))
    let varsMap ← MapValueMust .stringT (s.«variables».map (fun p => (p.1, AttrValue.stringV p.2)))
    ObjectValueMust returnSchema
      [("destinations", destsSet), ("labels", labelsList), ("variables", varsMap)]
      : Except String AttrValue) = _
  rw [destObjs_ok s.destinations]
  show (do
    let destsSet ← SetValueMust (.objectT destinationSchema) (s.destinations.map destObjPure)
    let labelsList ← ListValueMust .stringT (s.labels.map (fun l => .stringV l))
    let varsMap ← MapValueMust .stringT (s.«variables».map (fun p => (p.1, AttrValue.stringV p.2)))
    ObjectValueMust returnSchema
      [("destinations", destsSet), ("labels", labelsList), ("variables", varsMap)]
      : Except String AttrValue) = _
  rw [SetValueMust, if_pos (all_typeOf_destObjPure s.destinations),
    ListValueMust, if_pos (all_typeOf_stringV s.labels),
    MapValueMust, if_pos (all_typeOf_stringV_pairs s.«variables»)]
  rfl

theorem contactsAttr_ok (res : List (String × Summary)) :
    contactsAttr res = Except.ok (res.map (fun p => (p.1, summaryAttrPure p.2))) := by
  induction res with
  | nil => rfl
  | cons p rest ih =>
    show (do
      let v ← summaryAttr p.2
      let vs ← contactsAttr rest
      pure ((p.1, v) :: vs) : Except String (List (String × AttrValue))) = _
    rw [summaryAttr_ok, ih]
    rfl

theorem all_typeOf_summaryAttrPure (res : List (String × Summary)) :
    (res.map (fun p => (p.1, summaryAttrPure p.2))).all
      (fun p => p.2.typeOf == AttrType.objectT returnSchema) = true := by
  induction res with
  | nil => rfl
  | cons p rest ih =>
    rw [List.map_cons, List.all_cons, ih]
    rfl

/-- `FinalizeE` never reaches a panic branch: it returns the attribute
encoding of the pure finalize result. -/
theorem FinalizeE_ok (seen : List (String × Contact)) :
    FinalizeE seen = Except.ok (resultAttr (Finalize seen)) := by
  show (do
    let contacts ← contactsAttr (Finalize seen)
    MapValueMust (.objectT returnSchema) contacts : Except String AttrValue) = _
  rw [contactsAttr_ok]
  show MapValueMust (.objectT returnSchema)
    ((Finalize seen).map (fun p => (p.1, summaryAttrPure p.2))) = _
  rw [MapValueMust, if_pos (all_typeOf_summaryAttrPure (Finalize seen))]
  rfl

theorem mem_of_getLast?_eq_some {α : Type} :
    ∀ {l : List α} {a : α}, l.getLast? = some a → a ∈ l
  | [], _, h => by cases h
  | [b], a, h => by
    have : b = a := by simpa using h
    simp [this]
  | b :: c :: l, a, h =>
    List.mem_cons_of_mem b (mem_of_getLast?_eq_some (by simpa using h))

theorem summary_of_run (sel : Selectors) (records : List Record) (k : String) (s : Summary)
    (h : alGet? (Run sel records) k = some s) :
    ¬ k = "" ∧ ¬ groupRows sel records k = [] ∧
      s = finalizeContact (contactOf sel (groupRows sel records k)) := by
  by_cases hk : k = ""
  · rw [hk, run_lookup_blank] at h
    cases h
  · rw [run_lookup sel records k hk] at h
    by_cases he : (groupRows sel records k).isEmpty
    · rw [if_pos he] at h
      cases h
    · rw [if_neg he] at h
      injection h with h
      exact ⟨hk, by simpa [List.isEmpty_iff] using he, h.symm⟩

/-- C1. For every group of the result, the output destinations are the
stable unique filter, keyed on the `destination` value alone, of the
`(code, destination)` pairs of that group's records in input order: the
first pair with a given destination value is kept, every later pair
with the same destination value is dropped even when its code differs,
and kept pairs stay in first-seen order. -/
theorem run_destinations_first_seen_by_destination
    (sel : Selectors) (records : List Record) (k : String) (s : Summary)
    (h : alGet? (Run sel records) k = some s) :
    s.destinations =
      specFirstSeenBy Destination.destination (destSeq sel (groupRows sel records k)) := by
  obtain ⟨-, -, hs⟩ := summary_of_run sel records k s h
  subst hs
  show finalizeDestinations (contactOf sel (groupRows sel records k)).destinations = _
  rw [contactOf, contactExtend_destinations, finalizeDestinations_spec]
  rfl

/-- C2. For every group of the result, the labels list is the stable
unique filter (first occurrence of each distinct string, first-seen
order) of the concatenation, in input-record order, of the per-row
label tuples `record[f]` for `f` in `labelFields` in list order. -/
theorem run_labels_stable_unique_filter
    (sel : Selectors) (records : List Record) (k : String) (s : Summary)
    (h : alGet? (Run sel records) k = some s) :
    s.labels = specFirstSeenBy (fun l => l) (labelSeq sel (groupRows sel records k)) := by
  obtain ⟨-, -, hs⟩ := summary_of_run sel records k s h
  subst hs
  show UniqueSliceElements (finalizeLabels (contactOf sel (groupRows sel records k)).labels) = _
  rw [contactOf, contactExtend_labels, finalize_labels_eq]
  rfl

/-- C3. Last writer wins, applied unconditionally: for every group of
the result and every field of `variableFields`, the final value of
`variables[f]` is the value read (with the empty-string default) from
the last record of the group in input order. -/
theorem run_variables_last_writer_wins
    (sel : Selectors) (records : List Record) (k : String) (s : Summary)
    (f : String) (rlast : Record)
    (h : alGet? (Run sel records) k = some s) (hf : f ∈ sel.variableFields)
    (hlast : (groupRows sel records k).getLast? = some rlast) :
    alGet? s.«variables» f = some (getField rlast f) := by
  obtain ⟨-, -, hs⟩ := summary_of_run sel records k s h
  subst hs
  show alGet? (contactOf sel (groupRows sel records k)).«variables» f = _
  rw [contactOf, contactExtend_vars]
  exact vars_rows_last sel f hf (groupRows sel records k) rlast hlast _

/-- C4. The keys of the result are exactly the distinct, non-empty,
whitespace-trimmed values of the group-by field over the input records:
a record whose trimmed group-by value is empty contributes to no group,
and every present key has at least one contributing record. -/
theorem run_keys_iff_nonblank_group_value
    (sel : Selectors) (records : List Record) (k : String) :
    (∃ s, alGet? (Run sel records) k = some s) ↔
      (¬ k = "" ∧ ∃ r, r ∈ records ∧ groupKey sel r = k) := by
  constructor
  · rintro ⟨s, hs⟩
    obtain ⟨hk, hne, -⟩ := summary_of_run sel records k s hs
    obtain ⟨r, hr⟩ := List.exists_mem_of_ne_nil _ hne
    obtain ⟨hrm, hrk⟩ := List.mem_filter.mp hr
    exact ⟨hk, r, hrm, by simpa using hrk⟩
  · rintro ⟨hk, r, hr, hgk⟩
    rw [run_lookup sel records k hk]
    have hmem : r ∈ groupRows sel records k :=
      List.mem_filter.mpr ⟨hr, by simp [hgk]⟩
    have hne : ¬ (groupRows sel records k).isEmpty = true := by
      rw [List.isEmpty_iff]
      intro hnil
      rw [hnil] at hmem
      cases hmem
    rw [if_neg hne]
    exact ⟨_, rfl⟩

/-- C5 counterexample. With `variableFields = ["x"]` and a single
record `{name: a}` that has no field `x`, the group `a` still gets a
`variables` entry for `x` (bound to `""`): line 188 writes
`v[field]` unconditionally, so a variable field absent from every
record of the group does appear as a key, contradicting the claim. -/
theorem run_variables_absent_field_counterexample :
    (alGet? (Run ⟨"name", "code", "destination", [], ["x"]⟩ [[("name", "a")]]) "a").map
        (fun s => alGet? s.«variables» "x") = some (some "") ∧
      hasField [("name", "a")] "x" = false := by
  decide

/-- C5 (amended). For every group of the result, the key set of the
`variables` mapping is exactly the set of names in `variableFields`:
every listed field appears (fields absent from all the group's records
included, bound to the empty string), and no other key appears. -/
theorem run_variables_keys_eq_variableFields
    (sel : Selectors) (records : List Record) (k : String) (s : Summary) (f : String)
    (h : alGet? (Run sel records) k = some s) :
    (alGet? s.«variables» f).isSome = true ↔ f ∈ sel.variableFields := by
  obtain ⟨-, hne, hs⟩ := summary_of_run sel records k s h
  subst hs
  show (alGet? (contactOf sel (groupRows sel records k)).«variables» f).isSome = true ↔ _
  rw [contactOf, contactExtend_vars]
  constructor
  · intro hsome
    by_contra hf
    rw [vars_rows_not_mem sel f hf] at hsome
    simp [emptyContact, alGet?] at hsome
  · intro hf
    obtain ⟨rlast, hlast⟩ : ∃ a, (groupRows sel records k).getLast? = some a := by
      cases hl : (groupRows sel records k).getLast? with
      | none => exact absurd (List.getLast?_eq_none_iff.mp hl) hne
      | some a => exact ⟨a, rfl⟩
    rw [vars_rows_last sel f hf (groupRows sel records k) rlast hlast]
    rfl

theorem getField_append_blank (r : Record) (f g : String) :
    getField (r ++ [(f, "")]) g = getField r g := by
  rw [getField, getField, List.find?_append]
  cases hf : r.find? (fun p => p.1 == g) with
  | some p => rfl
  | none =>
    by_cases hfg : f = g
    · simp [Option.or, List.find?, hfg]
    · have hb : (f == g) = false := by simpa using hfg
      simp [Option.or, List.find?, hb]

theorem recordStep_congr (sel : Selectors) (c : Contact) (r r' : Record)
    (h : ∀ g, getField r g = getField r' g) :
    recordStep sel c r = recordStep sel c r' := by
  simp only [recordStep, h]

theorem processRecord_congr (sel : Selectors) (S : List (String × Contact)) (r r' : Record)
    (h : ∀ g, getField r g = getField r' g) :
    processRecord sel S r = processRecord sel S r' := by
  simp only [processRecord, groupKey, recordStep, h]

theorem run_congr_record (sel : Selectors) (pre post : List Record) (r r' : Record)
    (h : ∀ g, getField r g = getField r' g) :
    Run sel (pre ++ r :: post) = Run sel (pre ++ r' :: post) := by
  rw [Run, Run, groupRecords, groupRecords, List.foldl_append, List.foldl_append,
    List.foldl_cons, List.foldl_cons, processRecord_congr sel _ r r' h]

/-- C6. Looking up a selector absent from a record yields the empty
string, with no error: the whole aggregation behaves exactly as if the
record mapped that field to `""` (replacing the record by itself
extended with the binding `(f, "")` leaves the result unchanged). -/
theorem missing_field_defaults_to_empty
    (sel : Selectors) (pre post : List Record) (r : Record) (f : String)
    (h : hasField r f = false) :
    getField r f = "" ∧
      Run sel (pre ++ r :: post) = Run sel (pre ++ (r ++ [(f, "")]) :: post) :=
  ⟨getField_of_not_hasField r f h,
   run_congr_record sel pre post r _ (fun g => (getField_append_blank r f g).symm)⟩

/-- C7. Finalize is a pure, deterministic, total function of the
accumulators: in this embedding it is a function (so two applications
to the same accumulator state are identical and the accumulators are
not mutated), and even through the panicking framework constructors it
never fails, returning the encoding of the pure finalize result. -/
theorem finalize_pure_deterministic_total (acc : List (String × Contact)) :
    FinalizeE acc = Except.ok (resultAttr (Finalize acc)) :=
  FinalizeE_ok acc

/-- C8. For every well-formed input the aggregation returns a result
and never raises: the `*Must` constructors' panic branches are
unreachable, and the pipeline through them returns exactly the
encoding of the pure result. -/
theorem run_total_no_panic (sel : Selectors) (records : List Record) :
    RunE sel records = Except.ok (resultAttr (Run sel records)) := by
  rw [RunE, Run]
  exact FinalizeE_ok (groupRecords sel records)

/-- C9. For every group of the result, the `variables` mapping has an
entry for every field of `variableFields`; a listed field absent from
every record of the group is bound to the empty string (the zero value
of the missing-field lookup). -/
theorem run_variables_entry_for_every_field
    (sel : Selectors) (records : List Record) (k : String) (s : Summary) (f : String)
    (h : alGet? (Run sel records) k = some s) (hf : f ∈ sel.variableFields) :
    (∃ v, alGet? s.«variables» f = some v) ∧
      ((∀ r, r ∈ groupRows sel records k → hasField r f = false) →
        alGet? s.«variables» f = some "") := by
  obtain ⟨-, hne, hs⟩ := summary_of_run sel records k s h
  obtain ⟨rlast, hlast⟩ : ∃ a, (groupRows sel records k).getLast? = some a := by
    cases hl : (groupRows sel records k).getLast? with
    | none => exact absurd (List.getLast?_eq_none_iff.mp hl) hne
    | some a => exact ⟨a, rfl⟩
  have hval : alGet? s.«variables» f = some (getField rlast f) := by
    subst hs
    show alGet? (contactOf sel (groupRows sel records k)).«variables» f = _
    rw [contactOf, contactExtend_vars]
    exact vars_rows_last sel f hf (groupRows sel records k) rlast hlast _
  refine ⟨⟨_, hval⟩, fun hab => ?_⟩
  rw [hval, getField_of_not_hasField rlast f (hab rlast (mem_of_getLast?_eq_some hlast))]

/-- C10. Group noninterference: the result entry of a key depends only
on the subsequence, in input order, of records whose trimmed group-by
value equals that key; two inputs with the same subsequence for a key
yield the same entry for it. -/
theorem run_group_noninterference (sel : Selectors) (rs1 rs2 : List Record) (k : String)
    (hk : ¬ k = "") (h : groupRows sel rs1 k = groupRows sel rs2 k) :
    alGet? (Run sel rs1) k = alGet? (Run sel rs2) k := by
  rw [run_lookup sel rs1 k hk, run_lookup sel rs2 k hk, h]

/-- The selectors of the acceptance test
(`TestUniqueContactFunction_Known`). -/
def sampleSel : Selectors :=
  ⟨"name", "code", "destination", ["code", "destination"], ["name"]⟩

/-- The decoded CSV rows of the acceptance test. -/
def sampleRecords : List Record :=
  [[("name", "foo1"), ("code", "1"), ("destination", "ami-54d2a63b")],
   [("name", "foo1"), ("code", "1"), ("destination", "ami-54d2a63c")],
   [("name", "foo1"), ("code", "2"), ("destination", "ami-54d2a63b")],
   [("name", "bar1"), ("code", "m3.large"), ("destination", "ami-54d2a63b")]]

/-- The first three rows only (the `foo1` group alone). -/
def sampleRecordsFoo : List Record :=
  [[("name", "foo1"), ("code", "1"), ("destination", "ami-54d2a63b")],
   [("name", "foo1"), ("code", "1"), ("destination", "ami-54d2a63c")],
   [("name", "foo1"), ("code", "2"), ("destination", "ami-54d2a63b")]]

/-- The expected summary of group `foo1` in the acceptance test. -/
def sampleFoo : Summary :=
  ⟨["1", "ami-54d2a63b", "ami-54d2a63c", "2"], [("name", "foo1")],
   [⟨"1", "ami-54d2a63b"⟩, ⟨"1", "ami-54d2a63c"⟩]⟩

/-- The expected summary of group `bar1` in the acceptance test. -/
def sampleBar : Summary :=
  ⟨["m3.large", "ami-54d2a63b"], [("name", "bar1")],
   [⟨"m3.large", "ami-54d2a63b"⟩]⟩

theorem run_destinations_first_seen_by_destination_witness :
    alGet? (Run sampleSel sampleRecords) "foo1" = some sampleFoo ∧
      sampleFoo.destinations =
        specFirstSeenBy Destination.destination
          (destSeq sampleSel (groupRows sampleSel sampleRecords "foo1")) :=
  ⟨by decide,
   run_destinations_first_seen_by_destination sampleSel sampleRecords "foo1" sampleFoo
     (by decide)⟩

theorem run_labels_stable_unique_filter_witness :
    alGet? (Run sampleSel sampleRecords) "foo1" = some sampleFoo ∧
      sampleFoo.labels =
        specFirstSeenBy (fun l => l) (labelSeq sampleSel (groupRows sampleSel sampleRecords "foo1")) :=
  ⟨by decide,
   run_labels_stable_unique_filter sampleSel sampleRecords "foo1" sampleFoo (by decide)⟩

theorem run_variables_last_writer_wins_witness :
    alGet? (Run sampleSel sampleRecords) "foo1" = some sampleFoo ∧
      "name" ∈ sampleSel.variableFields ∧
      (groupRows sampleSel sampleRecords "foo1").getLast? =
        some [("name", "foo1"), ("code", "2"), ("destination", "ami-54d2a63b")] ∧
      alGet? sampleFoo.«variables» "name" =
        some (getField [("name", "foo1"), ("code", "2"), ("destination", "ami-54d2a63b")] "name") :=
  ⟨by decide, by decide, by decide,
   run_variables_last_writer_wins sampleSel sampleRecords "foo1" sampleFoo "name"
     [("name", "foo1"), ("code", "2"), ("destination", "ami-54d2a63b")]
     (by decide) (by decide) (by decide)⟩

theorem run_variables_keys_eq_variableFields_witness :
    alGet? (Run sampleSel sampleRecords) "bar1" = some sampleBar ∧
      ((alGet? sampleBar.«variables» "name").isSome = true ↔ "name" ∈ sampleSel.variableFields) :=
  ⟨by decide,
   run_variables_keys_eq_variableFields sampleSel sampleRecords "bar1" sampleBar "name"
     (by decide)⟩

theorem missing_field_defaults_to_empty_witness :
    hasField [("name", "a")] "x" = false ∧
      (getField [("name", "a")] "x" = "" ∧
        Run sampleSel ([] ++ [("name", "a")] :: []) =
          Run sampleSel ([] ++ ([("name", "a")] ++ [("x", "")]) :: [])) :=
  ⟨by decide,
   missing_field_defaults_to_empty sampleSel [] [] [("name", "a")] "x" (by decide)⟩

theorem run_variables_entry_for_every_field_witness :
    alGet? (Run ⟨"name", "code", "destination", [], ["x"]⟩ [[("name", "a")]]) "a" =
        some (⟨[], [("x", "")], [⟨"", ""⟩]⟩ : Summary) ∧
      "x" ∈ (⟨"name", "code", "destination", [], ["x"]⟩ : Selectors).variableFields ∧
      ((∃ v, alGet? (⟨[], [("x", "")], [⟨"", ""⟩]⟩ : Summary).«variables» "x" = some v) ∧
        ((∀ r, r ∈ groupRows ⟨"name", "code", "destination", [], ["x"]⟩ [[("name", "a")]] "a" →
            hasField r "x" = false) →
          alGet? (⟨[], [("x", "")], [⟨"", ""⟩]⟩ : Summary).«variables» "x" = some "")) :=
  ⟨by decide, by decide,
   run_variables_entry_for_every_field ⟨"name", "code", "destination", [], ["x"]⟩
     [[("name", "a")]] "a" ⟨[], [("x", "")], [⟨"", ""⟩]⟩ "x" (by decide) (by decide)⟩

theorem run_group_noninterference_witness :
    ¬ ("foo1" : String) = "" ∧
      groupRows sampleSel sampleRecords "foo1" = groupRows sampleSel sampleRecordsFoo "foo1" ∧
      alGet? (Run sampleSel sampleRecords) "foo1" = alGet? (Run sampleSel sampleRecordsFoo) "foo1" :=
  ⟨by decide, by decide,
   run_group_noninterference sampleSel sampleRecords sampleRecordsFoo "foo1"
     (by decide) (by decide)⟩
